import Mathlib

/-!
# Verification of the hmmpy Hidden Markov Model library

Shallow embedding of `hmmpy/hmm.py` (classes `InitialProbability`,
`TransitionProbability`, `EmissionProbability`, `HiddenMarkovModel`,
`DiscreteEmissionProbability`, `DiscreteHiddenMarkovModel`,
`GaussianHiddenMarkovModel`) and proofs about the embedded code.

Conventions of the embedding:
* numpy arrays are modelled as total functions from indices (`ℕ → α`,
  `ℕ → ℕ → α`) together with the explicit extents (`M` states, `N`
  observations, `K` symbols) the source carries alongside them;
* floating point numbers are modelled by an arbitrary `Field` (used at `ℚ`
  and `ℝ`) in the claims whose hypotheses rule out the IEEE special values,
  and by the explicit extended type `FVal` (finite / `inf` / `-inf` / `NaN`)
  where the behaviour on division by zero is itself the claim's subject;
* Python attribute mutation is modelled by explicit record update, and an
  attribute that may not exist yet (`self.c` before a forward pass,
  `self.pi` before `baum_welch`) by an `Option` field.
-/

open Finset

namespace Hmmpy

/-! ## numpy `max`/`argmax` over an index range

`np.max(v)`/`np.argmax(v)` for a vector `v` of length `m ≥ 1` are modelled
by `maxTo f (m-1)`/`argTo f (m-1)`: the maximum of `f 0, …, f (m-1)` and the
first index attaining it (numpy's argmax returns the first occurrence). -/

/-- Maximum of `f 0, …, f k`. -/
def maxTo {β : Type _} [LinearOrder β] (f : ℕ → β) : ℕ → β
  | 0 => f 0
  | k + 1 => max (maxTo f k) (f (k + 1))

/-- First index in `0, …, k` attaining the maximum of `f` there
(numpy `argmax` tie-breaking). -/
def argTo {β : Type _} [LinearOrder β] (f : ℕ → β) : ℕ → ℕ
  | 0 => 0
  | k + 1 => if f (argTo f k) < f (k + 1) then k + 1 else argTo f k

/-! ## `HiddenMarkovModel.forward_algorithm_internals`

```python
alpha[0, :] = l[0, :] * pi
c[0] = np.reciprocal(np.sum(alpha[0, :]))
alpha[0, :] = alpha[0, :] * c[0]
for n in np.arange(N - 1):
    alpha[n + 1, :] = np.sum(alpha[n, :][:, np.newaxis] * P, axis=0) * (l[n + 1, :])
    c[n + 1] = np.reciprocal(np.sum(alpha[n + 1, :]))
    alpha[n + 1, :] = alpha[n + 1, :] * c[n + 1]
return c, alpha
```

`fwd M P l pi n` is the pair (scaled row `alpha[n, :]`, coefficient `c[n]`).
The field inverse models `np.reciprocal` (faithful whenever the argument is
nonzero; the zero case is treated separately with `FVal` below). -/

/-- One row of the scaled forward table together with its scaling
coefficient, by recursion on the timestep. -/
def fwd {α : Type _} [Field α] (M : ℕ) (P l : ℕ → ℕ → α) (pi : ℕ → α) :
    ℕ → (ℕ → α) × α
  | 0 =>
    let a0 : ℕ → α := fun s => l 0 s * pi s
    let c0 : α := (∑ s ∈ range M, a0 s)⁻¹
    (fun s => a0 s * c0, c0)
  | n + 1 =>
    let ap : ℕ → α := (fwd M P l pi n).1
    let ar : ℕ → α := fun s => (∑ t ∈ range M, ap t * P t s) * l (n + 1) s
    let cn : α := (∑ s ∈ range M, ar s)⁻¹
    (fun s => ar s * cn, cn)

/-- Scaled forward variable `alpha[n, s]`. -/
def alphaF {α : Type _} [Field α] (M : ℕ) (P l : ℕ → ℕ → α) (pi : ℕ → α)
    (n s : ℕ) : α :=
  (fwd M P l pi n).1 s

/-- Scaling coefficient `c[n]` (reciprocal of the raw row sum). -/
def cF {α : Type _} [Field α] (M : ℕ) (P l : ℕ → ℕ → α) (pi : ℕ → α)
    (n : ℕ) : α :=
  (fwd M P l pi n).2

/-- The raw (pre-scaling) sum of `alpha[n, :]`, the quantity whose
reciprocal becomes `c[n]`. -/
def rawSum {α : Type _} [Field α] (M : ℕ) (P l : ℕ → ℕ → α) (pi : ℕ → α) :
    ℕ → α
  | 0 => ∑ s ∈ range M, l 0 s * pi s
  | n + 1 => ∑ s ∈ range M,
      (∑ t ∈ range M, alphaF M P l pi n t * P t s) * l (n + 1) s

/-- `HiddenMarkovModel.observation_log_probability`: runs the forward
algorithm and returns `-np.sum(self.c)` (note: the sum of the scaling
coefficients themselves, not of their logarithms). -/
def observation_log_probability {α : Type _} [Field α] (M N : ℕ)
    (P l : ℕ → ℕ → α) (pi : ℕ → α) : α :=
  -∑ n ∈ range N, cF M P l pi n

/-! ## `HiddenMarkovModel.backward_algorithm_internals`

```python
beta[N - 1, :] = 1
for n in np.arange(N - 2, -1, -1):
    b = l[n + 1, :]
    beta[n, :] = np.sum(P * b * beta[n + 1, :], axis=1) * c[n]
```

The downward loop is modelled by recursion on the distance `k` from the
final timestep: `betaAux … k` is the row `beta[N - 1 - k, :]`. -/

def betaAux {α : Type _} [Field α] (M : ℕ) (P l : ℕ → ℕ → α) (c : ℕ → α)
    (N : ℕ) : ℕ → ℕ → α
  | 0 => fun _ => 1
  | k + 1 => fun s =>
      (∑ t ∈ range M, P s t * l (N - 1 - k) t * betaAux M P l c N k t)
        * c (N - 2 - k)

/-- Scaled backward variable `beta[n, s]` for a sequence of length `N`. -/
def betaF {α : Type _} [Field α] (M : ℕ) (P l : ℕ → ℕ → α) (c : ℕ → α)
    (N n s : ℕ) : α :=
  betaAux M P l c N (N - 1 - n) s

/-! ## `HiddenMarkovModel.calculate_gamma` and `calculate_ksi`

```python
alpha_beta_product = alpha * beta
sum_over_all_states = np.sum(alpha_beta_product, axis=1)
gamma = alpha_beta_product / sum_over_all_states[:, np.newaxis]
```

```python
for n in range(N - 1):
    b = l[n + 1, :]
    ksi[n, :, :] = (P * b * beta[n + 1, :]) * alpha[n, :][:, np.newaxis]
    ksi[n, :, :] = ksi[n, :, :] / np.sum(ksi[n, :, :])
```
-/

/-- `gamma[n, s]` computed from arbitrary `alpha`/`beta` tables. -/
def gammaF {α : Type _} [Field α] (M : ℕ) (alpha beta : ℕ → ℕ → α)
    (n s : ℕ) : α :=
  alpha n s * beta n s / ∑ t ∈ range M, alpha n t * beta n t

/-- The unnormalized `ksi` entry `(P * b * beta[n+1]) * alpha[n][:, None]`. -/
def ksiRaw {α : Type _} [Field α] (P l : ℕ → ℕ → α)
    (alpha beta : ℕ → ℕ → α) (n s t : ℕ) : α :=
  P s t * l (n + 1) t * beta (n + 1) t * alpha n s

/-- `ksi[n, s, t]`: the unnormalized entry divided by the slice total. -/
def ksiF {α : Type _} [Field α] (M : ℕ) (P l : ℕ → ℕ → α)
    (alpha beta : ℕ → ℕ → α) (n s t : ℕ) : α :=
  ksiRaw P l alpha beta n s t /
    ∑ u ∈ range M, ∑ v ∈ range M, ksiRaw P l alpha beta n u v

/-! ## `HiddenMarkovModel.viterbi_internals` (linear domain)

```python
delta[0, :] = pi * l[0, :]
phi[0, :] = 0
for n in np.arange(1, N):
    delta[n, :] = l[n, :] * np.max((delta[n - 1, :] * P.T).T, axis=0)
    phi[n, :] = np.argmax((delta[n - 1, :] * P.T).T, axis=0)
x_star[N - 1] = np.argmax(delta[N - 1, :])
for n in np.arange(N - 2, -1, -1):
    x_star[n] = phi[n + 1, x_star[n + 1].astype(int)]
```

`(delta[n-1, :] * P.T).T` has entry `[t, s] = delta[n-1, t] * P[t, s]`; the
max/argmax run over the predecessor `t`.  Kept generic over a linear
ordered field so the same definition serves `ℚ` and `ℝ`. -/

/-- Linear-domain Viterbi score `delta[n, s]`. -/
def vitScore {α : Type _} [LinearOrderedField α] (M : ℕ) (P l : ℕ → ℕ → α)
    (pi : ℕ → α) : ℕ → ℕ → α
  | 0 => fun s => pi s * l 0 s
  | n + 1 => fun s =>
      l (n + 1) s * maxTo (fun t => vitScore M P l pi n t * P t s) (M - 1)

/-- Linear-domain backpointer `phi[n, s]` (`phi[0, :] = 0`). -/
def vitPhi {α : Type _} [LinearOrderedField α] (M : ℕ) (P l : ℕ → ℕ → α)
    (pi : ℕ → α) : ℕ → ℕ → ℕ
  | 0 => fun _ => 0
  | n + 1 => fun s =>
      argTo (fun t => vitScore M P l pi n t * P t s) (M - 1)

/-- Backtracking: `vitPathAux … k` is `x_star[N - 1 - k]`. -/
def vitPathAux {α : Type _} [LinearOrderedField α] (M : ℕ) (P l : ℕ → ℕ → α)
    (pi : ℕ → α) (N : ℕ) : ℕ → ℕ
  | 0 => argTo (vitScore M P l pi (N - 1)) (M - 1)
  | k + 1 => vitPhi M P l pi (N - 1 - k) (vitPathAux M P l pi N k)

/-- The state id decoded at timestep `n` by `viterbi_internals`. -/
def vitPath {α : Type _} [LinearOrderedField α] (M : ℕ) (P l : ℕ → ℕ → α)
    (pi : ℕ → α) (N n : ℕ) : ℕ :=
  vitPathAux M P l pi N (N - 1 - n)

/-! ## `HiddenMarkovModel.log_viterbi_internals` (log domain)

```python
log_P = ma.log(P).filled(-np.inf)
delta[0, :] = ma.log(pi).filled(-np.inf) + ma.log(l[0, :]).filled(-np.inf)
for n in np.arange(1, N):
    log_l = ma.log(l[n, :]).filled(-np.inf)
    delta[n, :] = log_l + np.max((np.expand_dims(delta[n-1, :], axis=1) + log_P), axis=0)
    phi[n, :] = np.argmax((np.expand_dims(delta[n-1, :], axis=1) + log_P), axis=0)
q_star[N - 1] = np.argmax(delta[N - 1, :])
for n in np.arange(N - 2, -1, -1):
    q_star[n] = phi[n + 1, q_star[n + 1].astype(int)]
```

`ma.log` masks arguments outside the domain `x > 0` and `.filled(-np.inf)`
turns them into `-inf`; `-inf` is modelled by `⊥` of `WithBot ℝ` (the
IEEE float additions `-inf + finite = -inf` agree with `WithBot` addition
since `+inf` never occurs). -/

/-- `ma.log(x).filled(-np.inf)` for a scalar: `-inf` (i.e. `⊥`) when
`x ≤ 0`, else `log x`. -/
noncomputable def elog (x : ℝ) : WithBot ℝ :=
  if x ≤ 0 then ⊥ else ((Real.log x : ℝ) : WithBot ℝ)

/-- Log-domain Viterbi score `delta[n, s]`. -/
noncomputable def logScore (M : ℕ) (P l : ℕ → ℕ → ℝ) (pi : ℕ → ℝ) :
    ℕ → ℕ → WithBot ℝ
  | 0 => fun s => elog (pi s) + elog (l 0 s)
  | n + 1 => fun s =>
      elog (l (n + 1) s) +
        maxTo (fun t => logScore M P l pi n t + elog (P t s)) (M - 1)

/-- Log-domain backpointer `phi[n, s]`. -/
noncomputable def logPhi (M : ℕ) (P l : ℕ → ℕ → ℝ) (pi : ℕ → ℝ) :
    ℕ → ℕ → ℕ
  | 0 => fun _ => 0
  | n + 1 => fun s =>
      argTo (fun t => logScore M P l pi n t + elog (P t s)) (M - 1)

/-- Backtracking for the log variant: `logPathAux … k` is `q_star[N-1-k]`. -/
noncomputable def logPathAux (M : ℕ) (P l : ℕ → ℕ → ℝ) (pi : ℕ → ℝ)
    (N : ℕ) : ℕ → ℕ
  | 0 => argTo (logScore M P l pi (N - 1)) (M - 1)
  | k + 1 => logPhi M P l pi (N - 1 - k) (logPathAux M P l pi N k)

/-- The state id decoded at timestep `n` by `log_viterbi_internals`. -/
noncomputable def logPath (M : ℕ) (P l : ℕ → ℕ → ℝ) (pi : ℕ → ℝ)
    (N n : ℕ) : ℕ :=
  logPathAux M P l pi N (N - 1 - n)

/-! ## IEEE special values

Where a claim is about what happens on division by zero, the field model
is not faithful (numpy silently produces `inf`/`NaN` and keeps going).
`FVal` models the *value* of an IEEE double exactly: a finite rational
(arithmetic between finite values is treated as exact, rounding is not
modelled), `inf`, `-inf`, or `NaN`, with the IEEE 754 propagation rules
for `+`, `*`, `/` and `np.reciprocal`. -/

inductive FVal
  | fin (q : ℚ)
  | inf
  | ninf
  | nan
deriving DecidableEq

namespace FVal

/-- Is the value an ordinary (finite) number? -/
def isFinite : FVal → Bool
  | fin _ => true
  | _ => false

/-- IEEE addition. -/
def add : FVal → FVal → FVal
  | nan, _ => nan
  | _, nan => nan
  | fin a, fin b => fin (a + b)
  | inf, ninf => nan
  | ninf, inf => nan
  | inf, _ => inf
  | _, inf => inf
  | ninf, _ => ninf
  | _, ninf => ninf

/-- IEEE multiplication (`0 * inf = NaN`). -/
def mul : FVal → FVal → FVal
  | nan, _ => nan
  | _, nan => nan
  | fin a, fin b => fin (a * b)
  | fin a, inf => if a = 0 then nan else if 0 < a then inf else ninf
  | inf, fin a => if a = 0 then nan else if 0 < a then inf else ninf
  | fin a, ninf => if a = 0 then nan else if 0 < a then ninf else inf
  | ninf, fin a => if a = 0 then nan else if 0 < a then ninf else inf
  | inf, inf => inf
  | inf, ninf => ninf
  | ninf, inf => ninf
  | ninf, ninf => inf

/-- IEEE division (with numpy's positive zero: `x/0 = ±inf` for `x ≠ 0`,
`0/0 = NaN`). -/
def div : FVal → FVal → FVal
  | nan, _ => nan
  | _, nan => nan
  | fin a, fin b =>
      if b = 0 then (if a = 0 then nan else if 0 < a then inf else ninf)
      else fin (a / b)
  | fin _, inf => fin 0
  | fin _, ninf => fin 0
  | inf, fin b => if 0 ≤ b then inf else ninf
  | ninf, fin b => if 0 ≤ b then ninf else inf
  | inf, inf => nan
  | inf, ninf => nan
  | ninf, inf => nan
  | ninf, ninf => nan

/-- `np.reciprocal` (`1/0.0 = inf`, `1/inf = 0`). -/
def recip (x : FVal) : FVal := div (fin 1) x

end FVal

/-- `np.sum` of `f 0, …, f (k-1)` in IEEE values, accumulating left to
right from `0.0`. -/
def sumF (f : ℕ → FVal) : ℕ → FVal
  | 0 => FVal.fin 0
  | k + 1 => (sumF f k).add (f k)

/-! ## The transition-matrix builder in `HiddenMarkovModel.__init__`

```python
self.P = self.transition_probability.eval(states_repeated, states_tiled).reshape(self.M, self.M)
sumP = np.sum(self.P, axis=1)
self.P = (self.P.T * 1 / sumP).T
```

`raw i j` is the matrix of raw transition-callback values
(`transition_probability(states[i], states[j])`); entry `[i, j]` of the
built matrix is `raw i j / (Σ_t raw i t)`.  `buildP` is the value-level
(exact field) version, `buildPF` the IEEE-value version showing what the
division produces when a row sum is zero. -/

/-- Built transition matrix, exact arithmetic. -/
def buildP (M : ℕ) (raw : ℕ → ℕ → ℚ) (i j : ℕ) : ℚ :=
  raw i j / ∑ t ∈ range M, raw i t

/-- Row sums of the raw callback matrix, as IEEE values. -/
def rowSumF (M : ℕ) (raw : ℕ → ℕ → ℚ) (i : ℕ) : FVal :=
  sumF (fun t => FVal.fin (raw i t)) M

/-- Built transition matrix, IEEE values (entry `raw[i,j] / sumP[i]`). -/
def buildPF (M : ℕ) (raw : ℕ → ℕ → ℚ) (i j : ℕ) : FVal :=
  (FVal.fin (raw i j)).div (rowSumF M raw i)

/-! ## `forward_algorithm_internals` over IEEE values

The same recurrence as `fwd`, with `np.reciprocal` at its actual IEEE
behaviour: the reciprocal of a zero raw sum is `inf`, not an error. -/

def fwdF (M : ℕ) (P l : ℕ → ℕ → ℚ) (pi : ℕ → ℚ) : ℕ → (ℕ → FVal) × FVal
  | 0 =>
    let a0 : ℕ → FVal := fun s => (FVal.fin (l 0 s)).mul (FVal.fin (pi s))
    let c0 : FVal := (sumF a0 M).recip
    (fun s => (a0 s).mul c0, c0)
  | n + 1 =>
    let ap : ℕ → FVal := (fwdF M P l pi n).1
    let ar : ℕ → FVal := fun s =>
      (sumF (fun t => (ap t).mul (FVal.fin (P t s))) M).mul
        (FVal.fin (l (n + 1) s))
    let cn : FVal := (sumF ar M).recip
    (fun s => (ar s).mul cn, cn)

/-! ## Probability model adapters

`InitialProbability.eval`, `EmissionProbability.eval` and
`DiscreteEmissionProbability`.  States and symbols are opaque domain
values in lists; an id is an index into the list (`states[x]` is modelled
by `List.getD`, with the theorems restricted to in-range ids, an
out-of-range id being a Python `IndexError`). -/

/-- `InitialProbability.eval`:
`np.array(list(map(lambda x: self.pi(self.states[x]), x)))`. -/
def initialProbabilityEval {σ : Type _} [Inhabited σ] (states : List σ)
    (piCb : σ → ℚ) (x : List ℕ) : List ℚ :=
  x.map fun i => piCb (states.getD i default)

/-- `EmissionProbability.eval`:
`np.array([self.l(obs, self.states[state]) for obs, state in zip(z, x)])`. -/
def emissionProbabilityEval {σ ω : Type _} [Inhabited σ] (states : List σ)
    (lCb : ω → σ → ℚ) (z : List ω) (x : List ℕ) : List ℚ :=
  List.zipWith (fun obs state => lCb obs (states.getD state default)) z x

/-- The raw `K×M` table built in `DiscreteEmissionProbability.__init__`
from `product(symbols, states)`: entry `[k, m] = l(symbols[k], states[m])`. -/
def discreteBRaw {σ ω : Type _} [Inhabited σ] [Inhabited ω] (states : List σ)
    (symbols : List ω) (lCb : ω → σ → ℚ) (k m : ℕ) : ℚ :=
  lCb (symbols.getD k default) (states.getD m default)

/-- The stored table after `self._b = self._b / np.sum(self.b, axis=0)`:
each column (state) is divided by its sum over all symbols. -/
def discreteB {σ ω : Type _} [Inhabited σ] [Inhabited ω] (states : List σ)
    (symbols : List ω) (lCb : ω → σ → ℚ) (k m : ℕ) : ℚ :=
  discreteBRaw states symbols lCb k m /
    ∑ k' ∈ range symbols.length, discreteBRaw states symbols lCb k' m

/-- `DiscreteEmissionProbability.eval`: looks the stored table up at the
symbol's id (`symbol_id_dictionary`, i.e. the symbol's index in the symbol
list) and the given state id. -/
def discreteEmissionEval {σ ω : Type _} [Inhabited σ] [Inhabited ω]
    [DecidableEq ω] (states : List σ) (symbols : List ω) (lCb : ω → σ → ℚ)
    (z : List ω) (x : List ℕ) : List ℚ :=
  List.zipWith (fun a b => discreteB states symbols lCb (symbols.indexOf a) b)
    z x

/-! ## `DiscreteHiddenMarkovModel.calculate_inner_transition_probability_sums`

```python
upper_sum = np.sum(ksi, axis=0)
lower_sum = np.sum(gamma, axis=0)
```

`ksi` has `N - 1` slices and `gamma` has `N` rows, so the upper sum runs
over `n = 0..N-2` and the lower sum over `n = 0..N-1`. -/

def innerTransitionSums (N : ℕ) (ksi : ℕ → ℕ → ℕ → ℚ)
    (gamma : ℕ → ℕ → ℚ) : (ℕ → ℕ → ℚ) × (ℕ → ℚ) :=
  (fun s t => ∑ n ∈ range (N - 1), ksi n s t,
   fun s => ∑ n ∈ range N, gamma n s)

/-- `DiscreteHiddenMarkovModel.calculate_inner_emission_probability_sums`:
`upper_sum[k, s]` collects `gamma[n, s]` over the timesteps where the
observed symbol equals symbol `k`; `lower_sum` is the sum over all
timesteps.  Observations and symbols are represented by symbol ids. -/
def innerEmissionSums (N : ℕ) (z : List ℕ) (gamma : ℕ → ℕ → ℚ) :
    (ℕ → ℕ → ℚ) × (ℕ → ℚ) :=
  (fun k s => ∑ n ∈ range N, if z.getD n 0 = k then gamma n s else 0,
   fun s => ∑ n ∈ range N, gamma n s)

/-! ## The stateful `HiddenMarkovModel` object

The model object after construction: the row-normalized matrix `P`, the
initial-probability adapter (represented by its id-level evaluation
`piF : state id → callback value`) and the emission adapter
(`lF : observation → state id → callback value`), plus the mutable cached
attributes `self.c` / `self.alpha` / `self.beta`.  An attribute that has
not been assigned yet (`hasattr` false) is `none`. -/

structure HMM (ω : Type _) where
  M : ℕ
  P : ℕ → ℕ → ℚ
  piF : ℕ → ℚ
  lF : ω → ℕ → ℚ
  cA : Option (ℕ → ℚ) := none
  alphaA : Option (ℕ → ℕ → ℚ) := none
  betaA : Option (ℕ → ℕ → ℚ) := none

namespace HMM

/-- `evaluate_initial_probabilities`: evaluates the initial-probability
adapter over all state ids. -/
def evalInit {ω : Type _} (m : HMM ω) : ℕ → ℚ := m.piF

/-- `evaluate_emission_probabilities`: `l[n, s] = emission(z[n], states[s])`. -/
def evalEmis {ω : Type _} [Inhabited ω] (m : HMM ω) (z : List ω) :
    ℕ → ℕ → ℚ :=
  fun n s => m.lF (z.getD n default) s

/-- `forward_algorithm`: runs the internals and stores `self.c`,
`self.alpha`. -/
def forwardAlg {ω : Type _} [Inhabited ω] (m : HMM ω) (z : List ω) :
    HMM ω :=
  { m with
    cA := some (cF m.M m.P (m.evalEmis z) m.evalInit)
    alphaA := some (alphaF m.M m.P (m.evalEmis z) m.evalInit) }

/-- `backward_algorithm`: `assert hasattr(self, "c")`, then runs the
internals with the *cached* `self.c` and stores `self.beta`. -/
def backwardAlg {ω : Type _} [Inhabited ω] (m : HMM ω) (z : List ω) :
    Except String (HMM ω) :=
  match m.cA with
  | none => .error "Run forward algorithm first!"
  | some c => .ok
      { m with betaA := some (betaF m.M m.P (m.evalEmis z) c z.length) }

end HMM

/-! ## The stateful `DiscreteHiddenMarkovModel` and `baum_welch`

Symbols are represented by their ids (`symbols = [0, …, K-1]`), so an
observation sequence is a list of symbol ids and the discrete emission
evaluation is a lookup in the stored table `bT`.  `piF` is the
`InitialProbability` adapter built from the constructor's callback;
`piAttr`/`bAttr` are the attributes `self.pi`/`self.b` that `baum_welch`
assigns (absent before the first call).  `np.exp` is an external library
function, abstracted as the parameter `expF`. -/

structure DHMM where
  M : ℕ
  K : ℕ
  P : ℕ → ℕ → ℚ
  piF : ℕ → ℚ
  bT : ℕ → ℕ → ℚ
  cA : Option (ℕ → ℚ) := none
  alphaA : Option (ℕ → ℕ → ℚ) := none
  betaA : Option (ℕ → ℕ → ℚ) := none
  gammaA : Option (ℕ → ℕ → ℚ) := none
  ksiA : Option (ℕ → ℕ → ℕ → ℚ) := none
  piAttr : Option (ℕ → ℚ) := none
  bAttr : Option (ℕ → ℕ → ℚ) := none

namespace DHMM

/-- `evaluate_initial_probabilities` for the discrete model. -/
def evalInit (m : DHMM) : ℕ → ℚ := m.piF

/-- `evaluate_emission_probabilities` via the discrete table:
`l[n, s] = b[symbol_id(z[n]), s]`. -/
def lOf (m : DHMM) (z : List ℕ) : ℕ → ℕ → ℚ :=
  fun n s => m.bT (z.getD n 0) s

/-- `observation_log_probability`'s returned value, `-np.sum(c)` (depends
only on the parameters, not on the cached attributes). -/
def obsLogProbVal (m : DHMM) (z : List ℕ) : ℚ :=
  -∑ n ∈ range z.length, cF m.M m.P (m.lOf z) m.evalInit n

/-- `forward_backward_algorithm`: forward, backward (the forward pass has
just filled the cache, so the cached `c` is the one for `z`), then
`calculate_gamma` and `calculate_ksi`, each result stored on the model. -/
def forwardBackward (m : DHMM) (z : List ℕ) : DHMM :=
  let l := m.lOf z
  let alpha := alphaF m.M m.P l m.evalInit
  let c := cF m.M m.P l m.evalInit
  let beta := betaF m.M m.P l c z.length
  { m with
    cA := some c
    alphaA := some alpha
    betaA := some beta
    gammaA := some (gammaF m.M alpha beta)
    ksiA := some (ksiF m.M m.P l alpha beta) }

/-- `np.max` of a list of values (defined on nonempty lists; the theorems
using it carry a nonemptiness hypothesis since `np.max([])` raises). -/
def maxQ (l : List ℚ) : ℚ := l.foldr max (l.headD 0)

/-- `DiscreteHiddenMarkovModel.baum_welch`.

```python
log_probs = np.array(list(map(lambda z: self.observation_log_probability(z), zs)))
max_log_prob = np.max(log_probs)
revised_scalings = np.exp(max_log_prob - log_probs)
for i, z in enumerate(zs):
    self.forward_backward_algorithm(z)
    P_upper, P_lower = self.calculate_inner_transition_probability_sums(self.ksi, self.gamma)
    P_uppers.append(P_upper*revised_scalings[i]); P_lowers.append(P_lower*revised_scalings[i])
    l_upper, l_lower = self.calculate_inner_emission_probability_sums(z, self.gamma, self.symbols)
    l_uppers.append(l_upper); l_lowers.append(l_lower)
    pis.append(self.gamma[0, :])
self.P = sum(P_uppers) / sum(P_lowers)[:, np.newaxis]
self.b = sum(l_uppers) / sum(l_lowers)[:, np.newaxis]
self.pi = sum(pis) / E
self.emission_probability.b = self.b
```

The per-sequence posteriors depend only on the (unchanged during the
loop) parameters, so the accumulated statistics are expressed directly by
the internals; the cache attributes end as the folded
`forward_backward_algorithm` left them (those of the last sequence).

The emission update divides the `(K, M)`-shaped `sum(l_uppers)` by the
`(M, 1)`-shaped `sum(l_lowers)[:, np.newaxis]`.  Under numpy
broadcasting this is *not* the column-wise division `upper[k,s] /
lower[s]`: the shapes are compatible only when `K = M`, `K = 1` or
`M = 1`, the denominator is indexed by the *row*, and the resulting
entry is `upper[if K = 1 then 0 else k, s] / lower[if M = 1 then 0 else k]`
(for `K = M` this is `upper[k, s] / lower[k]`).  For any other shape
combination the line raises
`ValueError: operands could not be broadcast together` — after `self.P`
has already been assigned but before `self.b`, `self.pi` and
`self.emission_probability.b`.  The second component of the result is
that error (`none` = completed normally). -/
def baumWelch (expF : ℚ → ℚ) (m : DHMM) (zs : List (List ℕ)) :
    DHMM × Option String :=
  let E := zs.length
  let logProbs := zs.map m.obsLogProbVal
  let maxLp := maxQ logProbs
  let revised : ℕ → ℚ := fun i => expF (maxLp - logProbs.getD i 0)
  let stats := fun (z : List ℕ) =>
    let l := m.lOf z
    let alpha := alphaF m.M m.P l m.evalInit
    let c := cF m.M m.P l m.evalInit
    let beta := betaF m.M m.P l c z.length
    let gamma := gammaF m.M alpha beta
    let ksi := ksiF m.M m.P l alpha beta
    (innerTransitionSums z.length ksi gamma,
     innerEmissionSums z.length z gamma,
     fun s => gamma 0 s)
  let sts := zs.map stats
  let at_ := fun i => sts.getD i ((fun _ _ => 0, fun _ => 0),
    (fun _ _ => 0, fun _ => 0), fun _ => 0)
  let Pnew : ℕ → ℕ → ℚ := fun s t =>
    (∑ i ∈ range E, (at_ i).1.1 s t * revised i) /
      (∑ i ∈ range E, (at_ i).1.2 s * revised i)
  let piNew : ℕ → ℚ := fun s => (∑ i ∈ range E, (at_ i).2.2 s) / E
  let mLoop := zs.foldl forwardBackward m
  if m.K = m.M ∨ m.K = 1 ∨ m.M = 1 then
    let bNew : ℕ → ℕ → ℚ := fun k s =>
      (∑ i ∈ range E, (at_ i).2.1.1 (if m.K = 1 then 0 else k) s) /
        ∑ i ∈ range E, (at_ i).2.1.2 (if m.M = 1 then 0 else k)
    ({ mLoop with
        P := Pnew
        bT := bNew
        bAttr := some bNew
        piAttr := some piNew }, none)
  else
    ({ mLoop with P := Pnew },
     some "ValueError: operands could not be broadcast together")

/-- `forward_algorithm` on the discrete model (used to state that decoding
and likelihood after `baum_welch` still read the adapter's initial
probabilities). -/
def forwardAlg (m : DHMM) (z : List ℕ) : DHMM :=
  { m with
    cA := some (cF m.M m.P (m.lOf z) m.evalInit)
    alphaA := some (alphaF m.M m.P (m.lOf z) m.evalInit) }

end DHMM

/-! ## The stateful `GaussianHiddenMarkovModel`

The Gaussian emission density (`scipy.stats.multivariate_normal.pdf`) is
an external library function, abstracted as the field `lG`.  Observations
are vectors, modelled by the opaque type `ω`. -/

structure GHMM (ω : Type _) where
  M : ℕ
  P : ℕ → ℕ → ℚ
  piF : ℕ → ℚ
  lG : ω → ℕ → ℚ
  mus : ℕ → ℕ → ℚ
  sigmas : ℕ → ℕ → ℕ → ℚ
  cA : Option (ℕ → ℚ) := none
  alphaA : Option (ℕ → ℕ → ℚ) := none
  betaA : Option (ℕ → ℕ → ℚ) := none
  piAttr : Option (ℕ → ℚ) := none

namespace GHMM

/-- Emission matrix for a sequence. -/
def lOf {ω : Type _} [Inhabited ω] (m : GHMM ω) (z : List ω) :
    ℕ → ℕ → ℚ :=
  fun n s => m.lG (z.getD n default) s

/-- `GaussianHiddenMarkovModel.learn_from_sequence`.

```python
for z in zs:
    self.forward_algorithm(z)
    self.backward_algorithm(z)
    self.calculate_gamma()
    self.calculate_ksi(z)
    ...
```

`calculate_gamma` and `calculate_ksi` are the static methods inherited
from `HiddenMarkovModel`, whose signatures are
`calculate_gamma(alpha, beta)` and `calculate_ksi(z, P, l, alpha, beta)`;
the calls pass zero and one argument respectively, so on the first
sequence the method raises
`TypeError: calculate_gamma() missing 2 required positional arguments`
right after the forward and backward passes have updated the cache (for
an empty batch the later `self.mus = sum([]) / sum([])` raises
`ZeroDivisionError` instead).  The error is modelled as the second
component; parameters are never reached, let alone updated. -/
def learnFromSequence {ω : Type _} [Inhabited ω] (m : GHMM ω)
    (zs : List (List ω)) : GHMM ω × Option String :=
  match zs with
  | [] => (m, some "ZeroDivisionError: division by zero")
  | z :: _ =>
    let l := m.lOf z
    let c := cF m.M m.P l m.piF
    let m1 := { m with
      cA := some c
      alphaA := some (alphaF m.M m.P l m.piF)
      betaA := some (betaF m.M m.P l c z.length) }
    (m1, some
      "TypeError: calculate_gamma() missing 2 required positional arguments: 'alpha' and 'beta'")

/-- `reestimate(zs, iterations)`: runs `learn_from_sequence` the given
number of times; an uncaught exception aborts the loop. -/
def reestimate {ω : Type _} [Inhabited ω] (m : GHMM ω)
    (zs : List (List ω)) : ℕ → GHMM ω × Option String
  | 0 => (m, none)
  | k + 1 =>
    match learnFromSequence m zs with
    | (m', some e) => (m', some e)
    | (m', none) => reestimate m' zs k

end GHMM

/-! ## Concrete instances used by witnesses and counterexamples -/

/-- Uniform 2-state transition matrix. -/
def exP : ℕ → ℕ → ℚ := fun _ _ => 1/2

/-- Uniform 2-state initial distribution. -/
def exPi : ℕ → ℚ := fun _ => 1/2

/-- All-ones emission matrix. -/
def exL1 : ℕ → ℕ → ℚ := fun _ _ => 1

/-- 1-state transition matrix. -/
def exP1 : ℕ → ℕ → ℚ := fun _ _ => 1

/-- 1-state initial distribution. -/
def exPi1 : ℕ → ℚ := fun _ => 1

/-- Emission matrix whose second step has probability zero everywhere. -/
def exL0 : ℕ → ℕ → ℚ := fun n _ => if n = 0 then 1 else 0

/-- Raw transition callback values whose first row sums to zero. -/
def exRaw0 : ℕ → ℕ → ℚ := fun i _ => if i = 0 then 0 else 1

/-- A 1-state model whose emission callback returns the observation
itself (so different sequences have different scaling vectors). -/
def exHMM : HMM ℚ :=
  { M := 1, P := exP1, piF := exPi1, lF := fun q _ => q }

/-- A 1-state Gaussian model (the abstract density is constant). -/
def exGHMM : GHMM ℚ :=
  { M := 1, P := exP1, piF := exPi1, lG := fun _ _ => 1,
    mus := fun _ _ => 0, sigmas := fun _ _ _ => 1 }

/-- A 2-state, 2-symbol discrete model with uniform parameters. -/
def exDHMM : DHMM :=
  { M := 2, K := 2, P := exP, piF := exPi, bT := fun _ _ => 1/2 }

/-- Real-valued uniform 2-state transition matrix. -/
noncomputable def exPR : ℕ → ℕ → ℝ := fun _ _ => 1/2

/-- Real-valued uniform 2-state initial distribution. -/
noncomputable def exPiR : ℕ → ℝ := fun _ => 1/2

/-- Real-valued emission matrix favouring state `n` at step `n`. -/
noncomputable def exLR : ℕ → ℕ → ℝ := fun n s => if n = s then 1 else 1/2

/-! ## Helper lemmas -/

theorem argTo_le {β : Type _} [LinearOrder β] (f : ℕ → β) (k : ℕ) :
    argTo f k ≤ k := by
  induction k with
  | zero => simp [argTo]
  | succ k ih =>
    by_cases h : f (argTo f k) < f (k + 1)
    · simp [argTo, h]
    · simp only [argTo, h, if_false]
      exact Nat.le_succ_of_le ih

theorem f_argTo_eq_maxTo {β : Type _} [LinearOrder β] (f : ℕ → β) (k : ℕ) :
    f (argTo f k) = maxTo f k := by
  induction k with
  | zero => simp [argTo, maxTo]
  | succ k ih =>
    by_cases h : f (argTo f k) < f (k + 1)
    · simp only [argTo, maxTo, h, if_true]
      rw [max_eq_right (le_of_lt (ih ▸ h))]
    · simp only [argTo, maxTo, h, if_false]
      rw [max_eq_left (ih ▸ le_of_not_lt h), ih]

theorem le_maxTo {β : Type _} [LinearOrder β] (f : ℕ → β) (k j : ℕ)
    (hj : j ≤ k) : f j ≤ maxTo f k := by
  induction k with
  | zero => simp_all [maxTo, Nat.le_zero.mp hj]
  | succ k ih =>
    rcases Nat.lt_succ_iff_lt_or_eq.mp (Nat.lt_succ_of_le hj) with hlt | heq
    · exact le_trans (ih (Nat.lt_succ_iff.mp hlt)) (le_max_left _ _)
    · subst heq; exact le_max_right _ _

theorem argTo_first {β : Type _} [LinearOrder β] (f : ℕ → β) (k j : ℕ)
    (hj : j ≤ k) (hval : maxTo f k ≤ f j) : argTo f k ≤ j := by
  induction k with
  | zero => simp [argTo]
  | succ k ih =>
    by_cases h : f (argTo f k) < f (k + 1)
    · simp only [argTo, h, if_true]
      rcases Nat.lt_succ_iff_lt_or_eq.mp (Nat.lt_succ_of_le hj) with hlt | heq
      · exfalso
        have hjk : j ≤ k := Nat.lt_succ_iff.mp hlt
        have h1 : f j ≤ maxTo f k := le_maxTo f k j hjk
        have h2 : maxTo f k < f (k + 1) := f_argTo_eq_maxTo f k ▸ h
        have h3 : f (k + 1) ≤ maxTo f (k + 1) := le_maxTo f (k + 1) (k + 1) le_rfl
        exact absurd (le_trans h3 hval) (not_le_of_lt (lt_of_le_of_lt h1 h2))
      · exact heq ▸ le_refl _
    · simp only [argTo, h, if_false]
      rcases Nat.lt_succ_iff_lt_or_eq.mp (Nat.lt_succ_of_le hj) with hlt | heq
      · have hjk : j ≤ k := Nat.lt_succ_iff.mp hlt
        refine ih hjk ?_
        calc maxTo f k ≤ maxTo f (k + 1) := le_max_left _ _
          _ ≤ f j := hval
      · subst heq; exact Nat.le_succ_of_le (argTo_le f k)

theorem betaF_rec {α : Type _} [Field α] (M : ℕ) (P l : ℕ → ℕ → α)
    (c : ℕ → α) (N n s : ℕ) (h : n + 2 ≤ N) :
    betaF M P l c N n s =
      (∑ t ∈ range M, P s t * l (n + 1) t * betaF M P l c N (n + 1) t)
        * c n := by
  have h1 : N - 1 - n = (N - 1 - (n + 1)) + 1 := by omega
  have h2 : N - 1 - (N - 1 - (n + 1)) = n + 1 := by omega
  have h3 : N - 2 - (N - 1 - (n + 1)) = n := by omega
  simp only [betaF]
  rw [h1, betaAux, h2, h3]

theorem cF_eq_inv_rawSum {α : Type _} [Field α] (M : ℕ) (P l : ℕ → ℕ → α)
    (pi : ℕ → α) (n : ℕ) :
    cF M P l pi n = (rawSum M P l pi n)⁻¹ := by
  cases n with
  | zero => rfl
  | succ n => rfl

theorem sumF_fin (f : ℕ → ℚ) (k : ℕ) :
    sumF (fun t => FVal.fin (f t)) k = FVal.fin (∑ t ∈ range k, f t) := by
  induction k with
  | zero => simp [sumF]
  | succ k ih => rw [sumF, ih, Finset.sum_range_succ]; rfl

theorem fin_mul (a b : ℚ) :
    (FVal.fin a).mul (FVal.fin b) = FVal.fin (a * b) := rfl

theorem fin_recip (q : ℚ) (h : q ≠ 0) :
    (FVal.fin q).recip = FVal.fin q⁻¹ := by
  simp [FVal.recip, FVal.div, h, one_div]

theorem fin_zero_recip : (FVal.fin 0).recip = FVal.inf := by decide

theorem fwdF_agrees (M : ℕ) (P l : ℕ → ℕ → ℚ) (pi : ℕ → ℚ) :
    ∀ n, (∀ k, k ≤ n → rawSum M P l pi k ≠ 0) →
      (∀ s, (fwdF M P l pi n).1 s = FVal.fin ((fwd M P l pi n).1 s)) ∧
        (fwdF M P l pi n).2 = FVal.fin ((fwd M P l pi n).2) := by
  intro n
  induction n with
  | zero =>
    intro h
    have h0 : (∑ s ∈ range M, l 0 s * pi s) ≠ 0 := h 0 le_rfl
    have e1 : sumF (fun s => (FVal.fin (l 0 s)).mul (FVal.fin (pi s))) M
        = FVal.fin (∑ s ∈ range M, l 0 s * pi s) := by
      have e : (fun s => (FVal.fin (l 0 s)).mul (FVal.fin (pi s)))
          = fun s => FVal.fin (l 0 s * pi s) := funext fun s => fin_mul _ _
      rw [e, sumF_fin]
    have hc : (fwdF M P l pi 0).2 = FVal.fin ((fwd M P l pi 0).2) := by
      show (sumF _ M).recip = _
      rw [e1, fin_recip _ h0]
      rfl
    refine ⟨?_, hc⟩
    intro s
    show ((FVal.fin (l 0 s)).mul (FVal.fin (pi s))).mul
        ((sumF _ M).recip) = _
    rw [fin_mul, e1, fin_recip _ h0, fin_mul]
    rfl
  | succ m ih =>
    intro h
    have hm := ih fun k hk => h k (le_trans hk (Nat.le_succ m))
    have hsucc : (∑ s ∈ range M,
        (∑ t ∈ range M, (fwd M P l pi m).1 t * P t s) * l (m + 1) s) ≠ 0 :=
      h (m + 1) le_rfl
    have har : ∀ s,
        (sumF (fun t => ((fwdF M P l pi m).1 t).mul (FVal.fin (P t s))) M).mul
          (FVal.fin (l (m + 1) s))
        = FVal.fin ((∑ t ∈ range M, (fwd M P l pi m).1 t * P t s)
            * l (m + 1) s) := by
      intro s
      have e : (fun t => ((fwdF M P l pi m).1 t).mul (FVal.fin (P t s)))
          = fun t => FVal.fin ((fwd M P l pi m).1 t * P t s) := by
        funext t; rw [hm.1 t, fin_mul]
      rw [e, sumF_fin, fin_mul]
    have esum : sumF (fun s =>
        (sumF (fun t => ((fwdF M P l pi m).1 t).mul (FVal.fin (P t s))) M).mul
          (FVal.fin (l (m + 1) s))) M
        = FVal.fin (∑ s ∈ range M,
            (∑ t ∈ range M, (fwd M P l pi m).1 t * P t s) * l (m + 1) s) := by
      have e : (fun s =>
          (sumF (fun t => ((fwdF M P l pi m).1 t).mul (FVal.fin (P t s))) M).mul
            (FVal.fin (l (m + 1) s)))
          = fun s => FVal.fin ((∑ t ∈ range M, (fwd M P l pi m).1 t * P t s)
              * l (m + 1) s) := funext har
      rw [e, sumF_fin]
    have hc : (fwdF M P l pi (m + 1)).2 = FVal.fin ((fwd M P l pi (m + 1)).2) := by
      show (sumF _ M).recip = _
      rw [esum, fin_recip _ hsucc]
      rfl
    refine ⟨?_, hc⟩
    intro s
    show ((sumF (fun t => ((fwdF M P l pi m).1 t).mul (FVal.fin (P t s))) M).mul
        (FVal.fin (l (m + 1) s))).mul ((sumF _ M).recip) = _
    rw [har s, esum, fin_recip _ hsucc, fin_mul]
    rfl

theorem fwdF_snd_recip (M : ℕ) (P l : ℕ → ℕ → ℚ) (pi : ℕ → ℚ) :
    ∀ n, (∀ k, k < n → rawSum M P l pi k ≠ 0) →
      (fwdF M P l pi n).2 = (FVal.fin (rawSum M P l pi n)).recip := by
  intro n
  cases n with
  | zero =>
    intro _
    have e1 : sumF (fun s => (FVal.fin (l 0 s)).mul (FVal.fin (pi s))) M
        = FVal.fin (∑ s ∈ range M, l 0 s * pi s) := by
      have e : (fun s => (FVal.fin (l 0 s)).mul (FVal.fin (pi s)))
          = fun s => FVal.fin (l 0 s * pi s) := funext fun s => fin_mul _ _
      rw [e, sumF_fin]
    show (sumF _ M).recip = _
    rw [e1]
    rfl
  | succ m =>
    intro h
    have hm := fwdF_agrees M P l pi m fun k hk => h k (Nat.lt_succ_of_le hk)
    have esum : sumF (fun s =>
        (sumF (fun t => ((fwdF M P l pi m).1 t).mul (FVal.fin (P t s))) M).mul
          (FVal.fin (l (m + 1) s))) M
        = FVal.fin (∑ s ∈ range M,
            (∑ t ∈ range M, (fwd M P l pi m).1 t * P t s) * l (m + 1) s) := by
      have e : (fun s =>
          (sumF (fun t => ((fwdF M P l pi m).1 t).mul (FVal.fin (P t s))) M).mul
            (FVal.fin (l (m + 1) s)))
          = fun s => FVal.fin ((∑ t ∈ range M, (fwd M P l pi m).1 t * P t s)
              * l (m + 1) s) := by
        funext s
        have e2 : (fun t => ((fwdF M P l pi m).1 t).mul (FVal.fin (P t s)))
            = fun t => FVal.fin ((fwd M P l pi m).1 t * P t s) := by
          funext t; rw [hm.1 t, fin_mul]
        rw [e2, sumF_fin, fin_mul]
      rw [e, sumF_fin]
    show (sumF _ M).recip = _
    rw [esum]
    rfl

/-! ## Claim theorems -/

/-- C1: `observation_log_probability` does not return the log-likelihood
`-Σ_n log c[n]`: on the trivial one-state model (`P = pi = l ≡ 1`) with a
length-1 sequence the scaling vector is `c = [1]`, the log-likelihood
`-Σ_n log c[n]` is `0`, but the function returns `-np.sum(c) = -1` (the
`np.log` is missing from `-np.sum(self.c)`). -/
theorem c1_observation_log_probability_wrong_value :
    observation_log_probability (α := ℝ) 1 1 (fun _ _ => 1) (fun _ _ => 1)
        (fun _ => 1) = -1 ∧
    (-∑ n ∈ range 1, Real.log
        (cF (α := ℝ) 1 (fun _ _ => 1) (fun _ _ => 1) (fun _ => 1) n)) = 0 ∧
    (-1 : ℝ) ≠ 0 := by
  have hc : cF (α := ℝ) 1 (fun _ _ => 1) (fun _ _ => 1) (fun _ => 1) 0 = 1 := by
    simp [cF, fwd]
  refine ⟨?_, ?_, by norm_num⟩
  · simp [observation_log_probability, hc]
  · simp [hc]

/-- C3 (amended): the per-sequence transition denominator accumulated for
state `s` is the sum of `gamma[n, s]` over all `N` timesteps
`n = 0..N-1`: it equals the claim's sum over `n = 0..N-2` plus the last
row `gamma[N-1, s]`. -/
theorem c3_transition_denominator_includes_last_step (N : ℕ)
    (ksi : ℕ → ℕ → ℕ → ℚ) (gamma : ℕ → ℕ → ℚ) (s : ℕ) (h : 1 ≤ N) :
    (innerTransitionSums N ksi gamma).2 s =
      (∑ n ∈ range (N - 1), gamma n s) + gamma (N - 1) s := by
  have hN : N = (N - 1) + 1 := by omega
  show (∑ n ∈ range N, gamma n s) = _
  conv_lhs => rw [hN]
  rw [Finset.sum_range_succ]

/-- C3, witness: at `N = 2` the denominator is `gamma[0, s] + gamma[1, s]`. -/
theorem c3_transition_denominator_witness :
    (innerTransitionSums 2 (fun _ _ _ => 0) (fun n s => (n + s : ℚ))).2 0 =
      (∑ n ∈ range 1, ((n : ℚ) + 0)) + ((1 : ℚ) + 0) :=
  c3_transition_denominator_includes_last_step 2 (fun _ _ _ => 0)
    (fun n s => (n + s : ℚ)) 0 (by norm_num)

/-- C3, counterexample: on an actual pipeline run (2 uniform states,
all-ones emissions, `N = 2`) the accumulated denominator for state 0 is
`1`, not the `1/2` that a sum excluding the last timestep would give. -/
theorem c3_transition_denominator_counterexample :
    (innerTransitionSums 2
        (ksiF 2 exP exL1 (alphaF 2 exP exL1 exPi)
          (betaF 2 exP exL1 (cF 2 exP exL1 exPi) 2))
        (gammaF 2 (alphaF 2 exP exL1 exPi)
          (betaF 2 exP exL1 (cF 2 exP exL1 exPi) 2))).2 0 ≠
      ∑ n ∈ range (2 - 1),
        gammaF 2 (alphaF 2 exP exL1 exPi)
          (betaF 2 exP exL1 (cF 2 exP exL1 exPi) 2) n 0 := by
  norm_num [innerTransitionSums, gammaF, alphaF, betaF, betaAux, cF, fwd,
    exP, exPi, exL1, Finset.sum_range_succ]

/-- C6 (amended): the forward algorithm performs no zero-likelihood
check.  While every raw step sum is nonzero the IEEE computation agrees
with the exact-field one (everything stays finite); at a step whose raw
sum is zero, `np.reciprocal` silently produces the scaling coefficient
`inf` — the run is not aborted by any error. -/
theorem c6_forward_zero_sum_silent_inf (M : ℕ) (P l : ℕ → ℕ → ℚ)
    (pi : ℕ → ℚ) (n : ℕ) :
    ((∀ k, k ≤ n → rawSum M P l pi k ≠ 0) →
      (∀ s, (fwdF M P l pi n).1 s = FVal.fin ((fwd M P l pi n).1 s)) ∧
        (fwdF M P l pi n).2 = FVal.fin ((fwd M P l pi n).2)) ∧
    ((∀ k, k < n → rawSum M P l pi k ≠ 0) → rawSum M P l pi n = 0 →
      (fwdF M P l pi n).2 = FVal.inf) := by
  refine ⟨fwdF_agrees M P l pi n, ?_⟩
  intro h hz
  rw [fwdF_snd_recip M P l pi n h, hz]
  exact fin_zero_recip

/-- C6, witness: a one-state model whose second-step emission is zero has
`c[0]` finite and `c[1] = inf`. -/
theorem c6_forward_zero_sum_witness :
    (fwdF 1 exP1 exL0 exPi1 1).2 = FVal.inf :=
  (c6_forward_zero_sum_silent_inf 1 exP1 exL0 exPi1 1).2
    (by
      intro k hk
      interval_cases k
      norm_num [rawSum, exP1, exL0, exPi1, Finset.sum_range_succ])
    (by
      norm_num [rawSum, alphaF, fwd, exP1, exL0, exPi1,
        Finset.sum_range_succ])

/-- C6, counterexample: on that model the IEEE forward run completes and
yields the infinite scaling coefficient (no fatal error is surfaced:
`fwdF`'s second step evaluates to `inf`, the first to the finite `1`). -/
theorem c6_forward_inf_counterexample :
    (fwdF 1 exP1 exL0 exPi1 1).2 = FVal.inf ∧
    (fwdF 1 exP1 exL0 exPi1 0).2 = FVal.fin 1 := by
  constructor
  · norm_num [fwdF, sumF, FVal.mul, FVal.add, FVal.recip, FVal.div,
      exP1, exL0, exPi1]
  · norm_num [fwdF, sumF, FVal.mul, FVal.add, FVal.recip, FVal.div,
      exP1, exL0, exPi1]

/-- C7 (amended): `backward_algorithm` fails with the ordering-violation
message exactly when no forward pass has ever been run on the model
(`self.c` absent); when any forward pass has left a cached scaling
vector — for whatever sequence — the call succeeds and uses that cached
vector. -/
theorem c7_backward_requires_some_forward {ω : Type _} [Inhabited ω]
    (m : HMM ω) (z : List ω) :
    (m.cA = none →
      m.backwardAlg z = Except.error "Run forward algorithm first!") ∧
    (∀ c, m.cA = some c → m.backwardAlg z = Except.ok
      { m with betaA := some (betaF m.M m.P (m.evalEmis z) c z.length) }) := by
  constructor
  · intro h; simp [HMM.backwardAlg, h]
  · intro c h; simp [HMM.backwardAlg, h]

/-- C7, witness: on a freshly constructed model the backward call errors. -/
theorem c7_backward_witness :
    exHMM.backwardAlg [(1 : ℚ)] = Except.error "Run forward algorithm first!" :=
  (c7_backward_requires_some_forward exHMM [(1 : ℚ)]).1 rfl

/-- C7, counterexample: after a forward pass on `[1/2]`, the backward
call on the different sequence `[1/3]` does not fail — it silently reuses
the cached scaling vector of `[1/2]` (`c[0] = 2`), although the forward
pass on `[1/3]` would give `c[0] = 3`. -/
theorem c7_stale_cache_counterexample :
    ((exHMM.forwardAlg [(1/2 : ℚ)]).backwardAlg [(1/3 : ℚ)]).toOption.isSome
        = true ∧
    (exHMM.forwardAlg [(1/2 : ℚ)]).cA
        = some (cF 1 exP1 (exHMM.evalEmis [(1/2 : ℚ)]) exPi1) ∧
    cF 1 exP1 (exHMM.evalEmis [(1/2 : ℚ)]) exPi1 0 = 2 ∧
    cF 1 exP1 (exHMM.evalEmis [(1/3 : ℚ)]) exPi1 0 = 3 := by
  refine ⟨rfl, rfl, ?_, ?_⟩
  · norm_num [cF, fwd, HMM.evalEmis, exHMM, exP1, exPi1,
      Finset.sum_range_succ]
  · norm_num [cF, fwd, HMM.evalEmis, exHMM, exP1, exPi1,
      Finset.sum_range_succ]

/-- C2: `reestimate` never completes a single EM pass:
`learn_from_sequence` calls the inherited static methods
`calculate_gamma(alpha, beta)` / `calculate_ksi(z, P, l, alpha, beta)`
with no arguments (`self.calculate_gamma()`), so the first sequence of
the first iteration raises `TypeError` right after forward/backward, and
the transition matrix, means, covariances and initial distribution are
never mutated. -/
theorem c2_gaussian_reestimate_type_error :
    (GHMM.reestimate exGHMM [[(0 : ℚ)]] 1).2 =
      some "TypeError: calculate_gamma() missing 2 required positional arguments: 'alpha' and 'beta'" ∧
    (GHMM.reestimate exGHMM [[(0 : ℚ)]] 1).1.P = exGHMM.P ∧
    (GHMM.reestimate exGHMM [[(0 : ℚ)]] 1).1.mus = exGHMM.mus ∧
    (GHMM.reestimate exGHMM [[(0 : ℚ)]] 1).1.sigmas = exGHMM.sigmas ∧
    (GHMM.reestimate exGHMM [[(0 : ℚ)]] 1).1.piAttr = exGHMM.piAttr :=
  ⟨rfl, rfl, rfl, rfl, rfl⟩

/-- C5 (amended): the constructor performs the row normalization
unconditionally.  When a raw row sum is positive the built row sums to 1;
when a raw row sum is zero no error is reported — the IEEE division is
performed and every entry of that row is non-finite (`NaN` or `±inf`). -/
theorem c5_row_normalization (M : ℕ) (raw : ℕ → ℕ → ℚ) (i : ℕ) :
    (0 < (∑ t ∈ range M, raw i t) →
      ∑ j ∈ range M, buildP M raw i j = 1) ∧
    ((∑ t ∈ range M, raw i t) = 0 →
      ∀ j, (buildPF M raw i j).isFinite = false) := by
  constructor
  · intro h
    simp only [buildP, ← Finset.sum_div]
    exact div_self (ne_of_gt h)
  · intro h j
    simp only [buildPF, rowSumF, sumF_fin, h]
    by_cases ha : raw i j = 0
    · simp [FVal.div, ha, FVal.isFinite]
    · by_cases hp : 0 < raw i j <;>
        simp [FVal.div, ha, hp, FVal.isFinite]

/-- C5, witness: a positive row is normalized to sum 1, a zero row yields
a non-finite entry. -/
theorem c5_row_normalization_witness :
    (∑ j ∈ range 2, buildP 2 exRaw0 1 j = 1) ∧
    (buildPF 2 exRaw0 0 0).isFinite = false :=
  ⟨(c5_row_normalization 2 exRaw0 1).1
      (by norm_num [exRaw0, Finset.sum_range_succ]),
   (c5_row_normalization 2 exRaw0 0).2
      (by norm_num [exRaw0, Finset.sum_range_succ]) 0⟩

/-- C5, counterexample: with a transition callback whose first row is all
zeros, construction does not fail: it produces a matrix whose first row
entries are `NaN` (0/0), while the other row is normalized to sum 1. -/
theorem c5_zero_row_counterexample :
    buildPF 2 exRaw0 0 0 = FVal.nan ∧ buildPF 2 exRaw0 0 1 = FVal.nan ∧
    (∑ j ∈ range 2, buildP 2 exRaw0 1 j) = 1 := by
  refine ⟨?_, ?_, ?_⟩
  · norm_num [buildPF, rowSumF, sumF, FVal.add, FVal.div, exRaw0]
  · norm_num [buildPF, rowSumF, sumF, FVal.add, FVal.div, exRaw0]
  · norm_num [buildP, exRaw0, Finset.sum_range_succ]

theorem foldl_forwardBackward_piF (zs : List (List ℕ)) :
    ∀ m : DHMM, (zs.foldl DHMM.forwardBackward m).piF = m.piF := by
  induction zs with
  | nil => intro m; rfl
  | cons z zs ih =>
    intro m
    exact (ih (DHMM.forwardBackward m z)).trans rfl

theorem foldl_forwardBackward_piAttr (zs : List (List ℕ)) :
    ∀ m : DHMM, (zs.foldl DHMM.forwardBackward m).piAttr = m.piAttr := by
  induction zs with
  | nil => intro m; rfl
  | cons z zs ih =>
    intro m
    exact (ih (DHMM.forwardBackward m z)).trans rfl

theorem foldl_forwardBackward_bT (zs : List (List ℕ)) :
    ∀ m : DHMM, (zs.foldl DHMM.forwardBackward m).bT = m.bT := by
  induction zs with
  | nil => intro m; rfl
  | cons z zs ih =>
    intro m
    exact (ih (DHMM.forwardBackward m z)).trans rfl

/-- C10: the `InitialProbability` adapter is untouched by `baum_welch`
(on the error path of the emission-table broadcast as well as on
completion), so `evaluate_initial_probabilities` — and with it every
subsequent forward pass — still evaluates the constructor's original
callback; when `baum_welch` completes, the reestimated value was
nevertheless assigned to the attribute `self.pi`, and when the broadcast
raises, `self.pi` and the emission table are left as they were. -/
theorem c10_baum_welch_keeps_initial_adapter (expF : ℚ → ℚ) (m : DHMM)
    (zs : List (List ℕ)) (_h : zs ≠ []) :
    (DHMM.baumWelch expF m zs).1.piF = m.piF ∧
    (DHMM.baumWelch expF m zs).1.evalInit = m.evalInit ∧
    ((DHMM.baumWelch expF m zs).2 = none →
      (DHMM.baumWelch expF m zs).1.piAttr.isSome = true) ∧
    ((DHMM.baumWelch expF m zs).2.isSome →
      (DHMM.baumWelch expF m zs).1.piAttr = m.piAttr ∧
      (DHMM.baumWelch expF m zs).1.bT = m.bT) ∧
    ∀ z, ((DHMM.baumWelch expF m zs).1.forwardAlg z).cA =
      some (cF (DHMM.baumWelch expF m zs).1.M (DHMM.baumWelch expF m zs).1.P
        ((DHMM.baumWelch expF m zs).1.lOf z) m.evalInit) := by
  have hpi : (DHMM.baumWelch expF m zs).1.piF = m.piF := by
    simp only [DHMM.baumWelch]
    split
    · exact foldl_forwardBackward_piF zs m
    · exact foldl_forwardBackward_piF zs m
  refine ⟨hpi, hpi, ?_, ?_, ?_⟩
  · simp only [DHMM.baumWelch]
    split
    · intro _
      rfl
    · intro hnone
      simp at hnone
  · simp only [DHMM.baumWelch]
    split
    · intro hsome
      simp at hsome
    · intro _
      exact ⟨foldl_forwardBackward_piAttr zs m, foldl_forwardBackward_bT zs m⟩
  · intro z
    exact congrArg (fun f => some (cF (DHMM.baumWelch expF m zs).1.M
      (DHMM.baumWelch expF m zs).1.P
      ((DHMM.baumWelch expF m zs).1.lOf z) f)) hpi

/-- C10, witness: a concrete 2-state, 2-symbol discrete model (so the
emission broadcast is the `K = M` case and `baum_welch` completes), one
training sequence. -/
theorem c10_baum_welch_witness :
    (DHMM.baumWelch id exDHMM [[0]]).1.piF = exDHMM.piF ∧
    (DHMM.baumWelch id exDHMM [[0]]).1.evalInit = exDHMM.evalInit ∧
    (DHMM.baumWelch id exDHMM [[0]]).2 = none ∧
    (DHMM.baumWelch id exDHMM [[0]]).1.piAttr.isSome = true ∧
    ∀ z, ((DHMM.baumWelch id exDHMM [[0]]).1.forwardAlg z).cA =
      some (cF (DHMM.baumWelch id exDHMM [[0]]).1.M
        (DHMM.baumWelch id exDHMM [[0]]).1.P
        ((DHMM.baumWelch id exDHMM [[0]]).1.lOf z) exDHMM.evalInit) := by
  have h := c10_baum_welch_keeps_initial_adapter id exDHMM [[0]] (by simp)
  have hnone : (DHMM.baumWelch id exDHMM [[0]]).2 = none := rfl
  exact ⟨h.1, h.2.1, hnone, h.2.2.1 hnone, h.2.2.2.2⟩

/-- C4 (amended): the `InitialProbability` and generic
`EmissionProbability` adapters return exactly the user callback's values
(no normalization), but the discrete emission adapter is not raw: its
stored table divides each state's column by the column's sum over all
symbols, so each state's symbol distribution sums to 1 whenever its raw
column sum is nonzero. -/
theorem c4_adapter_normalization {σ ω : Type _} [Inhabited σ] [Inhabited ω]
    (states : List σ) (symbols : List ω) (piCb : σ → ℚ) (lCb : ω → σ → ℚ)
    (x : List ℕ) (z : List ω) (i m' : ℕ)
    (hx : i < x.length) (hz : i < z.length) :
    (initialProbabilityEval states piCb x).getD i 0 =
      piCb (states.getD (x.getD i 0) default) ∧
    (emissionProbabilityEval states lCb z x).getD i 0 =
      lCb (z.getD i default) (states.getD (x.getD i 0) default) ∧
    ((∑ k ∈ range symbols.length, discreteBRaw states symbols lCb k m') ≠ 0 →
      ∑ k ∈ range symbols.length, discreteB states symbols lCb k m' = 1) := by
  refine ⟨?_, ?_, ?_⟩
  · simp [initialProbabilityEval, List.getD_eq_getElem?_getD,
      List.getElem?_map, List.getElem?_eq_getElem, hx]
  · have hlen : i < (List.zipWith
        (fun obs state => lCb obs (states.getD state default)) z x).length := by
      rw [List.length_zipWith]
      omega
    rw [emissionProbabilityEval, List.getD_eq_getElem _ _ hlen,
      List.getElem_zipWith, List.getD_eq_getElem _ _ hz,
      List.getD_eq_getElem _ _ hx]
  · intro hcol
    simp only [discreteB, ← Finset.sum_div]
    exact div_self hcol

/-- C4, witness: in-range instantiation of the raw-value and
normalization statements. -/
theorem c4_adapter_witness :
    (initialProbabilityEval [0] (fun s => (s : ℚ) + 5) [0]).getD 0 0 =
      (([0].getD (([0].getD 0 0 : ℕ)) 0 : ℕ) : ℚ) + 5 ∧
    (emissionProbabilityEval [0] (fun (o : ℕ) (s : ℕ) => (o : ℚ) + (s : ℚ))
        [7] [0]).getD 0 0 = ((7 : ℕ) : ℚ) + (([0].getD 0 0 : ℕ) : ℚ) ∧
    ∑ k ∈ range ([10, 20] : List ℕ).length,
      discreteB [0] [10, 20] (fun o _ => if o = 10 then (3 : ℚ) else 1) k 0
      = 1 := by
  have h := c4_adapter_normalization ([0] : List ℕ) ([10, 20] : List ℕ)
    (fun s => (s : ℚ) + 5) (fun o _ => if o = 10 then (3 : ℚ) else 1)
    [0] [10] 0 0 (by norm_num) (by norm_num)
  have h2 := c4_adapter_normalization ([0] : List ℕ) ([10, 20] : List ℕ)
    (fun s => (s : ℚ) + 5) (fun (o : ℕ) (s : ℕ) => (o : ℚ) + (s : ℚ))
    [0] [7] 0 0 (by norm_num) (by norm_num)
  refine ⟨h.1, h2.2.1, h.2.2 ?_⟩
  norm_num [discreteBRaw, Finset.sum_range_succ]

/-- C4, counterexample: the discrete emission adapter does not return the
raw callback value: with symbols `[10, 20]`, one state, and callback
values `3` and `1`, `eval` on observation `10` returns the normalized
`3/4`, not `3`. -/
theorem c4_discrete_normalizes_counterexample :
    (discreteEmissionEval [0] [10, 20]
        (fun o (_ : ℕ) => if o = 10 then (3 : ℚ) else 1) [10] [0]).getD 0 0
      = 3/4 ∧
    (fun o (_ : ℕ) => if o = 10 then (3 : ℚ) else 1) 10 0 = 3 ∧
    ((3 : ℚ)/4) ≠ 3 := by
  refine ⟨?_, by norm_num, by norm_num⟩
  norm_num [discreteEmissionEval, discreteB, discreteBRaw,
    Finset.sum_range_succ]

/-- C9: for a run of `forward_backward_algorithm` with all normalizing
sums nonzero, every row of `gamma` sums to 1, every `M×M` slice of `ksi`
sums to 1, and the row sums of each `ksi` slice reproduce `gamma`
(`Σ_t ksi[n,s,t] = gamma[n,s]` for `n ≤ N-2`). -/
theorem c9_posterior_consistency {α : Type _} [Field α] (M N : ℕ)
    (P l : ℕ → ℕ → α) (pi : ℕ → α)
    (h1 : ∀ n, n < N → rawSum M P l pi n ≠ 0)
    (h2 : ∀ n, n < N → (∑ t ∈ range M,
        alphaF M P l pi n t * betaF M P l (cF M P l pi) N n t) ≠ 0)
    (h3 : ∀ n, n + 2 ≤ N → (∑ u ∈ range M, ∑ v ∈ range M,
        ksiRaw P l (alphaF M P l pi) (betaF M P l (cF M P l pi) N) n u v)
          ≠ 0) :
    (∀ n, n < N → ∑ s ∈ range M,
        gammaF M (alphaF M P l pi) (betaF M P l (cF M P l pi) N) n s = 1) ∧
    (∀ n, n + 2 ≤ N → ∑ s ∈ range M, ∑ t ∈ range M,
        ksiF M P l (alphaF M P l pi) (betaF M P l (cF M P l pi) N) n s t
          = 1) ∧
    (∀ n s, n + 2 ≤ N → ∑ t ∈ range M,
        ksiF M P l (alphaF M P l pi) (betaF M P l (cF M P l pi) N) n s t =
        gammaF M (alphaF M P l pi) (betaF M P l (cF M P l pi) N) n s) := by
  refine ⟨?_, ?_, ?_⟩
  · intro n hn
    simp only [gammaF, ← Finset.sum_div]
    exact div_self (h2 n hn)
  · intro n hn
    simp only [ksiF, ← Finset.sum_div]
    exact div_self (h3 n hn)
  · intro n s hn
    have hcne : cF M P l pi n ≠ 0 := by
      rw [cF_eq_inv_rawSum]
      exact inv_ne_zero (h1 n (by omega))
    have hrow : ∀ u, (∑ t ∈ range M,
        ksiRaw P l (alphaF M P l pi) (betaF M P l (cF M P l pi) N) n u t)
        = (∑ t ∈ range M,
            P u t * l (n + 1) t * betaF M P l (cF M P l pi) N (n + 1) t)
          * alphaF M P l pi n u := by
      intro u
      rw [Finset.sum_mul]
      rfl
    have hbrec : ∀ u, betaF M P l (cF M P l pi) N n u =
        (∑ t ∈ range M,
          P u t * l (n + 1) t * betaF M P l (cF M P l pi) N (n + 1) t)
        * cF M P l pi n :=
      fun u => betaF_rec M P l (cF M P l pi) N n u hn
    have hZ : (∑ u ∈ range M, ∑ v ∈ range M,
        ksiRaw P l (alphaF M P l pi) (betaF M P l (cF M P l pi) N) n u v)
        = ∑ u ∈ range M, (∑ t ∈ range M,
            P u t * l (n + 1) t * betaF M P l (cF M P l pi) N (n + 1) t)
          * alphaF M P l pi n u :=
      Finset.sum_congr rfl fun u _ => hrow u
    have hD : (∑ t ∈ range M,
        alphaF M P l pi n t * betaF M P l (cF M P l pi) N n t)
        = (∑ u ∈ range M, (∑ t ∈ range M,
            P u t * l (n + 1) t * betaF M P l (cF M P l pi) N (n + 1) t)
          * alphaF M P l pi n u) * cF M P l pi n := by
      rw [Finset.sum_mul]
      refine Finset.sum_congr rfl fun u _ => ?_
      rw [hbrec u]
      ring
    calc
      ∑ t ∈ range M,
          ksiF M P l (alphaF M P l pi) (betaF M P l (cF M P l pi) N) n s t
        = (∑ t ∈ range M,
            ksiRaw P l (alphaF M P l pi) (betaF M P l (cF M P l pi) N) n s t)
          / (∑ u ∈ range M, ∑ v ∈ range M,
              ksiRaw P l (alphaF M P l pi)
                (betaF M P l (cF M P l pi) N) n u v) := by
          simp only [ksiF, ← Finset.sum_div]
      _ = ((∑ t ∈ range M,
            P s t * l (n + 1) t * betaF M P l (cF M P l pi) N (n + 1) t)
          * alphaF M P l pi n s)
          / (∑ u ∈ range M, (∑ t ∈ range M,
              P u t * l (n + 1) t * betaF M P l (cF M P l pi) N (n + 1) t)
            * alphaF M P l pi n u) := by
          rw [hrow s, hZ]
      _ = ((∑ t ∈ range M,
            P s t * l (n + 1) t * betaF M P l (cF M P l pi) N (n + 1) t)
          * alphaF M P l pi n s * cF M P l pi n)
          / ((∑ u ∈ range M, (∑ t ∈ range M,
              P u t * l (n + 1) t * betaF M P l (cF M P l pi) N (n + 1) t)
            * alphaF M P l pi n u) * cF M P l pi n) :=
          (mul_div_mul_right _ _ hcne).symm
      _ = alphaF M P l pi n s * betaF M P l (cF M P l pi) N n s
          / (∑ t ∈ range M,
              alphaF M P l pi n t * betaF M P l (cF M P l pi) N n t) := by
          rw [hD, hbrec s]
          ring_nf
      _ = gammaF M (alphaF M P l pi) (betaF M P l (cF M P l pi) N) n s := rfl

/-- C9, witness: the 2-state uniform model with all-ones emissions and
`N = 2` satisfies the nonzero-sum hypotheses, and the first `gamma` row,
the `ksi` slice, and the `ksi` row sums check out. -/
theorem c9_posterior_consistency_witness :
    (∑ s ∈ range 2,
      gammaF 2 (alphaF 2 exP exL1 exPi)
        (betaF 2 exP exL1 (cF 2 exP exL1 exPi) 2) 0 s = 1) ∧
    (∑ s ∈ range 2, ∑ t ∈ range 2,
      ksiF 2 exP exL1 (alphaF 2 exP exL1 exPi)
        (betaF 2 exP exL1 (cF 2 exP exL1 exPi) 2) 0 s t = 1) ∧
    (∑ t ∈ range 2,
      ksiF 2 exP exL1 (alphaF 2 exP exL1 exPi)
        (betaF 2 exP exL1 (cF 2 exP exL1 exPi) 2) 0 0 t =
      gammaF 2 (alphaF 2 exP exL1 exPi)
        (betaF 2 exP exL1 (cF 2 exP exL1 exPi) 2) 0 0) := by
  have h1 : ∀ n, n < 2 → rawSum 2 exP exL1 exPi n ≠ 0 := by
    intro n hn
    interval_cases n <;>
      norm_num [rawSum, alphaF, fwd, exP, exPi, exL1, Finset.sum_range_succ]
  have h2 : ∀ n, n < 2 → (∑ t ∈ range 2,
      alphaF 2 exP exL1 exPi n t *
        betaF 2 exP exL1 (cF 2 exP exL1 exPi) 2 n t) ≠ 0 := by
    intro n hn
    interval_cases n <;>
      norm_num [alphaF, betaF, betaAux, cF, fwd, exP, exPi, exL1,
        Finset.sum_range_succ]
  have h3 : ∀ n, n + 2 ≤ 2 → (∑ u ∈ range 2, ∑ v ∈ range 2,
      ksiRaw exP exL1 (alphaF 2 exP exL1 exPi)
        (betaF 2 exP exL1 (cF 2 exP exL1 exPi) 2) n u v) ≠ 0 := by
    intro n hn
    have hn0 : n = 0 := by omega
    subst hn0
    norm_num [ksiRaw, alphaF, betaF, betaAux, cF, fwd, exP, exPi, exL1,
      Finset.sum_range_succ]
  have h := c9_posterior_consistency 2 2 exP exL1 exPi h1 h2 h3
  exact ⟨h.1 0 (by norm_num), h.2.1 0 (by norm_num), h.2.2 0 0 (by norm_num)⟩

theorem elog_mul (x y : ℝ) (hx : 0 ≤ x) (hy : 0 ≤ y) :
    elog (x * y) = elog x + elog y := by
  rcases eq_or_lt_of_le hx with hx0 | hx0
  · simp [elog, ← hx0]
  · rcases eq_or_lt_of_le hy with hy0 | hy0
    · simp [elog, ← hy0]
    · have hxy : 0 < x * y := mul_pos hx0 hy0
      rw [elog, elog, elog, if_neg (not_le.mpr hxy), if_neg (not_le.mpr hx0),
        if_neg (not_le.mpr hy0),
        Real.log_mul (ne_of_gt hx0) (ne_of_gt hy0), WithBot.coe_add]

theorem elog_monotone : Monotone elog := by
  intro a b hab
  by_cases hb : b ≤ 0
  · have ha : a ≤ 0 := le_trans hab hb
    simp [elog, ha, hb]
  · by_cases ha : a ≤ 0
    · simp [elog, ha, hb]
    · rw [elog, elog, if_neg ha, if_neg hb]
      exact WithBot.coe_le_coe.mpr (Real.log_le_log (lt_of_not_le ha) hab)

theorem elog_lt_elog_iff {a b : ℝ} (ha : 0 ≤ a) :
    elog a < elog b ↔ a < b := by
  constructor
  · intro h
    by_contra hle
    exact absurd (elog_monotone (not_lt.mp hle)) (not_le_of_lt h)
  · intro h
    have hb0 : 0 < b := lt_of_le_of_lt ha h
    rcases eq_or_lt_of_le ha with ha0 | ha0
    · rw [elog, elog, if_pos (le_of_eq ha0.symm), if_neg (not_le.mpr hb0)]
      exact WithBot.bot_lt_coe _
    · rw [elog, elog, if_neg (not_le.mpr ha0), if_neg (not_le.mpr hb0)]
      exact WithBot.coe_lt_coe.mpr (Real.log_lt_log ha0 h)

theorem maxTo_elog (f : ℕ → ℝ) (k : ℕ) :
    maxTo (fun i => elog (f i)) k = elog (maxTo f k) := by
  induction k with
  | zero => rfl
  | succ k ih =>
    show max (maxTo (fun i => elog (f i)) k) (elog (f (k + 1)))
        = elog (max (maxTo f k) (f (k + 1)))
    rw [ih, elog_monotone.map_max]

theorem argTo_elog (f : ℕ → ℝ) (k : ℕ) (hf : ∀ i, i ≤ k → 0 ≤ f i) :
    argTo (fun i => elog (f i)) k = argTo f k := by
  induction k with
  | zero => rfl
  | succ k ih =>
    have hf' : ∀ i, i ≤ k → 0 ≤ f i := fun i hi =>
      hf i (le_trans hi (Nat.le_succ k))
    have ihk := ih hf'
    simp only [argTo, ihk]
    by_cases hcond : f (argTo f k) < f (k + 1)
    · rw [if_pos hcond, if_pos ((elog_lt_elog_iff
        (hf' _ (argTo_le f k))).mpr hcond)]
    · rw [if_neg hcond, if_neg (fun hc => hcond ((elog_lt_elog_iff
        (hf' _ (argTo_le f k))).mp hc))]

theorem vitScore_nonneg (M : ℕ) (P l : ℕ → ℕ → ℝ) (pi : ℕ → ℝ)
    (hP : ∀ s t, 0 ≤ P s t) (hpi : ∀ s, 0 ≤ pi s) (hl : ∀ n s, 0 ≤ l n s) :
    ∀ n s, 0 ≤ vitScore M P l pi n s := by
  intro n
  induction n with
  | zero => intro s; exact mul_nonneg (hpi s) (hl 0 s)
  | succ n ih =>
    intro s
    refine mul_nonneg (hl (n + 1) s) ?_
    exact le_trans (mul_nonneg (ih 0) (hP 0 s))
      (le_maxTo (fun t => vitScore M P l pi n t * P t s) (M - 1) 0
        (Nat.zero_le _))

theorem logScore_eq_elog (M : ℕ) (P l : ℕ → ℕ → ℝ) (pi : ℕ → ℝ)
    (hP : ∀ s t, 0 ≤ P s t) (hpi : ∀ s, 0 ≤ pi s) (hl : ∀ n s, 0 ≤ l n s) :
    ∀ n s, logScore M P l pi n s = elog (vitScore M P l pi n s) := by
  intro n
  induction n with
  | zero =>
    intro s
    show elog (pi s) + elog (l 0 s) = elog (vitScore M P l pi 0 s)
    rw [← elog_mul _ _ (hpi s) (hl 0 s)]
    rfl
  | succ n ih =>
    intro s
    show elog (l (n + 1) s) +
        maxTo (fun t => logScore M P l pi n t + elog (P t s)) (M - 1) = _
    have e1 : (fun t => logScore M P l pi n t + elog (P t s))
        = fun t => elog (vitScore M P l pi n t * P t s) := by
      funext t
      rw [ih t, ← elog_mul _ _ (vitScore_nonneg M P l pi hP hpi hl n t)
        (hP t s)]
    have hmax : 0 ≤ maxTo (fun t => vitScore M P l pi n t * P t s) (M - 1) :=
      le_trans (mul_nonneg (vitScore_nonneg M P l pi hP hpi hl n 0) (hP 0 s))
        (le_maxTo (fun t => vitScore M P l pi n t * P t s) (M - 1) 0
          (Nat.zero_le _))
    rw [e1, maxTo_elog, ← elog_mul _ _ (hl (n + 1) s) hmax]
    rfl

theorem logPhi_eq_vitPhi (M : ℕ) (P l : ℕ → ℕ → ℝ) (pi : ℕ → ℝ)
    (hP : ∀ s t, 0 ≤ P s t) (hpi : ∀ s, 0 ≤ pi s) (hl : ∀ n s, 0 ≤ l n s) :
    ∀ n s, logPhi M P l pi n s = vitPhi M P l pi n s := by
  intro n s
  cases n with
  | zero => rfl
  | succ n =>
    show argTo (fun t => logScore M P l pi n t + elog (P t s)) (M - 1)
        = argTo (fun t => vitScore M P l pi n t * P t s) (M - 1)
    have e1 : (fun t => logScore M P l pi n t + elog (P t s))
        = fun t => elog (vitScore M P l pi n t * P t s) := by
      funext t
      rw [logScore_eq_elog M P l pi hP hpi hl n t,
        ← elog_mul _ _ (vitScore_nonneg M P l pi hP hpi hl n t) (hP t s)]
    rw [e1]
    exact argTo_elog _ _ fun i _ =>
      mul_nonneg (vitScore_nonneg M P l pi hP hpi hl n i) (hP i s)

theorem logPathAux_eq_vitPathAux (M : ℕ) (P l : ℕ → ℕ → ℝ) (pi : ℕ → ℝ)
    (N : ℕ) (hP : ∀ s t, 0 ≤ P s t) (hpi : ∀ s, 0 ≤ pi s)
    (hl : ∀ n s, 0 ≤ l n s) :
    ∀ k, logPathAux M P l pi N k = vitPathAux M P l pi N k := by
  intro k
  induction k with
  | zero =>
    show argTo (logScore M P l pi (N - 1)) (M - 1)
        = argTo (vitScore M P l pi (N - 1)) (M - 1)
    have e : logScore M P l pi (N - 1)
        = fun s => elog (vitScore M P l pi (N - 1) s) :=
      funext (logScore_eq_elog M P l pi hP hpi hl (N - 1))
    rw [e]
    exact argTo_elog _ _ fun i _ => vitScore_nonneg M P l pi hP hpi hl (N - 1) i
  | succ k ih =>
    show logPhi M P l pi (N - 1 - k) (logPathAux M P l pi N k)
        = vitPhi M P l pi (N - 1 - k) (vitPathAux M P l pi N k)
    rw [ih]
    exact logPhi_eq_vitPhi M P l pi hP hpi hl (N - 1 - k) _

/-- C8: on nonnegative inputs (a probability model), the linear-domain
and log-domain Viterbi recurrences decode the identical state-id path at
every timestep (in exact arithmetic, where the linear recurrence never
underflows); moreover the shared argmax (`argTo`) resolves every tie to
the lowest index: any index attaining the maximum is at or after the one
returned. -/
theorem c8_viterbi_log_linear_equivalence (M N : ℕ) (P l : ℕ → ℕ → ℝ)
    (pi : ℕ → ℝ) (hP : ∀ s t, 0 ≤ P s t) (hpi : ∀ s, 0 ≤ pi s)
    (hl : ∀ n s, 0 ≤ l n s) :
    (∀ n, n < N → vitPath M P l pi N n = logPath M P l pi N n) ∧
    (∀ (β : Type) [LinearOrder β] (f : ℕ → β) (k j : ℕ),
      j ≤ k → maxTo f k ≤ f j → argTo f k ≤ j) := by
  constructor
  · intro n _
    exact (logPathAux_eq_vitPathAux M P l pi N hP hpi hl (N - 1 - n)).symm
  · intro β instB f k j hj hval
    exact argTo_first f k j hj hval

/-- C8, witness: the 2-state uniform model over `ℝ` satisfies the
nonnegativity hypotheses; the decoded paths agree at step 0 of a length-2
sequence, and a constant score function's argmax over indices 0..1 ties
to index 0. -/
theorem c8_viterbi_witness :
    vitPath 2 exPR exLR exPiR 2 0 = logPath 2 exPR exLR exPiR 2 0 ∧
    argTo (fun _ => (0 : ℚ)) 1 ≤ 0 := by
  have h := c8_viterbi_log_linear_equivalence 2 2 exPR exLR exPiR
    (by intro s t; norm_num [exPR])
    (by intro s; norm_num [exPiR])
    (by intro n s; unfold exLR; split <;> norm_num)
  exact ⟨h.1 0 (by norm_num),
    h.2 ℚ (fun _ => (0 : ℚ)) 1 0 (Nat.zero_le _) (by norm_num [maxTo])⟩

end Hmmpy
